import Mathlib

/-!
Verification of the recurring-task scheduling and completion-ordering engine
of the `hearth` repository (Django app `tasks`): a shallow embedding of
`src/tasks/services.py` (`_rrule_includes_date`, `generate_instances_for_date`,
`rollover_incomplete`), the mutating views of `src/tasks/views.py`
(`today_complete`, `today_uncomplete`, `toggle_complete`, `reorder`) and the
data model of `src/tasks/models.py`, together with theorems settling the
specification's claims about them.
-/

deriving instance DecidableEq for Except

namespace Hearth

/-! ## Dates

Python's `datetime.date` restricted to what the engine uses: proleptic
Gregorian calendar, `toordinal` (1 Jan 0001 = ordinal 1), `weekday`
(Monday = 0), and lexicographic comparison on (year, month, day). -/

structure Date where
  year : Nat
  month : Nat
  day : Nat
deriving DecidableEq

def isLeapYear (y : Nat) : Bool :=
  y % 4 == 0 && (y % 100 != 0 || y % 400 == 0)

/-- Cumulative day count before month `m` (1-based) in year `y`. -/
def daysBeforeMonth (y m : Nat) : Nat :=
  ([0, 31, 59, 90, 120, 151, 181, 212, 243, 273, 304, 334].getD (m - 1) 0)
    + (if 2 < m && isLeapYear y then 1 else 0)

/-- Python `date.toordinal`: 0001-01-01 has ordinal 1. -/
def Date.toOrdinal (d : Date) : Nat :=
  let py := d.year - 1
  py * 365 + py / 4 - py / 100 + py / 400 + daysBeforeMonth d.year d.month + d.day

/-- Python `date.weekday`: Monday = 0 … Sunday = 6. -/
def Date.weekday (d : Date) : Nat :=
  (d.toOrdinal + 6) % 7

/-- Python date comparison `a <= b` (lexicographic on year, month, day). -/
def Date.ble (a b : Date) : Bool :=
  decide (a.year < b.year ∨ (a.year = b.year ∧
    (a.month < b.month ∨ (a.month = b.month ∧ a.day ≤ b.day))))

/-- Python date comparison `a < b`. -/
def Date.blt (a b : Date) : Bool :=
  decide (a.year < b.year ∨ (a.year = b.year ∧
    (a.month < b.month ∨ (a.month = b.month ∧ a.day < b.day))))

/-! ## Recurrence rules

Model of `dateutil.rrule.rrulestr` as the code uses it: the rule text is
the RRULE body (the code prepends `RRULE:`), split into `NAME=VALUE` parts
on `;`, names and values uppercased.  The model covers the parameter names
this application's rule strings contain, `FREQ` and `BYDAY` (any other
parameter name is a parse error here, as no rule string of the repository
and no theorem below contains one); `FREQ` accepts dateutil's seven
frequency names and fails on anything else, exactly as dateutil raises
`ValueError` on an unknown frequency; `BYDAY` accepts a nonempty comma
list of the seven bare weekday codes.  A parse failure is `Except.error`,
mirroring the `ValueError` that escapes `_rrule_includes_date` (which has
no exception handler). -/

inductive Freq
  | yearly | monthly | weekly | daily | hourly | minutely | secondly
deriving DecidableEq

structure RRule where
  freq : Freq
  byweekday : Option (List Nat)
deriving DecidableEq

/-- Split a character list on a separator, like Python `str.split(c)`:
always returns at least one (possibly empty) chunk. -/
def splitOnChar (c : Char) : List Char → List (List Char)
  | [] => [[]]
  | x :: xs =>
    let r := splitOnChar c xs
    if x = c then [] :: r
    else
      match r with
      | [] => [[x]]
      | h :: t => (x :: h) :: t

def Freq.name : Freq → String
  | .yearly => "YEARLY"
  | .monthly => "MONTHLY"
  | .weekly => "WEEKLY"
  | .daily => "DAILY"
  | .hourly => "HOURLY"
  | .minutely => "MINUTELY"
  | .secondly => "SECONDLY"

def parseFreqChars (value : List Char) : Option Freq :=
  if value = "YEARLY".data then some .yearly
  else if value = "MONTHLY".data then some .monthly
  else if value = "WEEKLY".data then some .weekly
  else if value = "DAILY".data then some .daily
  else if value = "HOURLY".data then some .hourly
  else if value = "MINUTELY".data then some .minutely
  else if value = "SECONDLY".data then some .secondly
  else none

/-- dateutil's weekday map: MO = 0 … SU = 6, by the two code letters. -/
def weekdayCode (a b : Char) : Option Nat :=
  if a = 'M' && b = 'O' then some 0
  else if a = 'T' && b = 'U' then some 1
  else if a = 'W' && b = 'E' then some 2
  else if a = 'T' && b = 'H' then some 3
  else if a = 'F' && b = 'R' then some 4
  else if a = 'S' && b = 'A' then some 5
  else if a = 'S' && b = 'U' then some 6
  else none

/-- Parse a BYDAY value: a nonempty comma list of bare weekday codes. -/
def parseBydayChars : List Char → Except String (List Nat)
  | a :: b :: rest =>
    match weekdayCode a b with
    | none => .error "invalid BYDAY"
    | some w =>
      match rest with
      | [] => .ok [w]
      | ',' :: rest2 =>
        match parseBydayChars rest2 with
        | .ok ws => .ok (w :: ws)
        | .error e => .error e
      | _ => .error "invalid BYDAY"
  | _ => .error "invalid BYDAY"

structure RRuleAcc where
  freq : Option Freq
  byweekday : Option (List Nat)

def handleNameValue (acc : RRuleAcc) (name0 value0 : List Char) :
    Except String RRuleAcc :=
  let name := name0.map Char.toUpper
  let value := value0.map Char.toUpper
  if name = "FREQ".data then
    match parseFreqChars value with
    | some f => .ok { acc with freq := some f }
    | none => .error "invalid FREQ"
  else if name = "BYDAY".data then
    match parseBydayChars value with
    | .ok ws => .ok { acc with byweekday := some ws }
    | .error e => .error e
  else .error "unknown parameter"

def handlePart (acc : RRuleAcc) (part : List Char) : Except String RRuleAcc :=
  match splitOnChar '=' part with
  | [name, value] => handleNameValue acc name value
  | _ => .error "malformed RRULE part"

def rrulestr (text : String) : Except String RRule :=
  match (splitOnChar ';' text.data).foldlM handlePart ⟨none, none⟩ with
  | .error e => .error e
  | .ok acc =>
    match acc.freq with
    | some f => .ok ⟨f, acc.byweekday⟩
    | none => .error "missing FREQ"

/-- Whether `target` (at midnight) is an occurrence of the rule anchored at
`dtstart = midnight of start`.  With a BYDAY list, occurrences at date
granularity are exactly the listed weekdays on/after the start, for every
frequency; without one, DAILY (and the sub-daily frequencies, whose
occurrences include every midnight) hit every date on/after the start,
WEEKLY hits the start's weekday cadence, MONTHLY the start's day-of-month,
YEARLY the start's month and day. -/
def occursOn (r : RRule) (start target : Date) : Bool :=
  match r.byweekday with
  | some wds => wds.contains target.weekday && Date.ble start target
  | none =>
    match r.freq with
    | .daily | .hourly | .minutely | .secondly => Date.ble start target
    | .weekly =>
        Date.ble start target &&
          ((target.toOrdinal : Int) - (start.toOrdinal : Int)) % 7 == 0
    | .monthly => Date.ble start target && target.day == start.day
    | .yearly =>
        Date.ble start target && target.month == start.month &&
          target.day == start.day

/-- `src/tasks/services.py` lines 11–24.  `until` is the end of day of
`end_date if end_date and end_date <= target_date else target_date`; the
function returns whether the rule has an occurrence at `target_date` and
`target_date`'s midnight is `<= until`. -/
def rruleIncludesDate (rrule_text : String) (start_date : Date)
    (end_date : Option Date) (target_date : Date) : Except String Bool :=
  match rrulestr rrule_text with
  | .error e => .error e
  | .ok rule =>
    let untilDate : Date :=
      match end_date with
      | some e => if Date.ble e target_date then e else target_date
      | none => target_date
    .ok (occursOn rule start_date target_date &&
      Date.ble target_date untilDate)

/-! ## Data model (`src/tasks/models.py`)

Rows are embedded as records; the database is the `Store` record below.
Primary keys are `Nat`s, wall-clock timestamps are abstract `Nat` ticks
drawn from the store's monotone clock. -/

inductive Status
  | incomplete | complete | skipped
deriving DecidableEq

inductive Source
  | manual | generated | rolled_over
deriving DecidableEq

inductive EventType
  | completed | uncompleted | skipped | unskipped
deriving DecidableEq

structure Task where
  id : Nat
  priority : Int
  sort_order : Int
  is_active : Bool
deriving DecidableEq

structure TaskScheduleRule where
  taskId : Nat
  rrule : String
  start_date : Date
  end_date : Option Date
  is_active : Bool
deriving DecidableEq

structure TaskInstance where
  id : Nat
  taskId : Nat
  instance_date : Date
  status : Status
  source : Source
  assigned_order : Int
  completion_order : Option Int
  completed_at : Option Nat
  skipped_at : Option Nat
deriving DecidableEq

structure TaskExecution where
  task_instance : Nat
  event_type : EventType
deriving DecidableEq

structure Store where
  tasks : List Task
  rules : List TaskScheduleRule
  instances : List TaskInstance
  executions : List TaskExecution
  nextId : Nat
  now : Nat
deriving DecidableEq

/-- Django `Max` aggregate over a list of values: `none` on an empty list. -/
def maxOpt : List Int → Option Int
  | [] => none
  | x :: xs =>
    match maxOpt xs with
    | none => some x
    | some m => some (max x m)

/-- Stable insertion into a sorted list (earlier elements stay before
later, equal-keyed ones). -/
def insertLe {α : Type} (le : α → α → Bool) (a : α) : List α → List α
  | [] => [a]
  | b :: l => if le a b then a :: b :: l else b :: insertLe le a l

/-- Deterministic stable sort used to model SQL `ORDER BY` (which leaves
tie order unspecified; the engine's comparisons below are total
preorders, so any stable sort gives the same list). -/
def sortLe {α : Type} (le : α → α → Bool) : List α → List α
  | [] => []
  | a :: l => insertLe le a (sortLe le l)

def Store.findInstance (s : Store) (pk : Nat) : Option TaskInstance :=
  s.instances.find? (fun i => i.id == pk)

def Store.updateInstance (s : Store) (pk : Nat)
    (f : TaskInstance → TaskInstance) : Store :=
  { s with instances := s.instances.map fun i => if i.id == pk then f i else i }

def Store.appendExecution (s : Store) (pk : Nat) (e : EventType) : Store :=
  { s with executions := s.executions ++ [⟨pk, e⟩] }

/-- Advance the wall clock one tick (a new `timezone.now()` reading). -/
def Store.tick (s : Store) : Store :=
  { s with now := s.now + 1 }

def Store.findTask (s : Store) (tid : Nat) : Option Task :=
  s.tasks.find? (fun t => t.id == tid)

/-- The join `task__is_active` used in query filters. -/
def Store.taskActive (s : Store) (tid : Nat) : Bool :=
  match s.findTask tid with
  | some t => t.is_active
  | none => false

def Store.taskPriority (s : Store) (tid : Nat) : Int :=
  match s.findTask tid with
  | some t => t.priority
  | none => 0

def Store.taskSortOrder (s : Store) (tid : Nat) : Int :=
  match s.findTask tid with
  | some t => t.sort_order
  | none => 0

/-- `Max("completion_order")` over the COMPLETE instances of a date
(Django's aggregate ignores NULL values and is NULL when no row has one). -/
def Store.maxCompletionOrder (s : Store) (d : Date) : Option Int :=
  maxOpt ((s.instances.filter fun i =>
    i.instance_date == d && i.status == Status.complete).filterMap
      (·.completion_order))

/-- The non-null completion orders held on date `d`. -/
def completionOrders (l : List TaskInstance) (d : Date) : List Int :=
  (l.filter fun i =>
    i.instance_date == d && i.status == Status.complete).filterMap
      (·.completion_order)

/-! ## Completion engine (`src/tasks/views.py`)

`get_object_or_404` aborts the request with no store change when the pk is
missing, so the missing-pk case is the identity on the store.  Note that
`(max_order or 0) + 1` in Python coincides with `max_order.getD 0 + 1`
because `0 or 0 == 0`. -/

/-- `today_complete` (views.py lines 141–162): unconditionally marks the
instance complete with the next per-date completion order and appends a
`completed` execution record — there is no already-complete guard. -/
def today_complete (s : Store) (pk : Nat) : Store :=
  match s.findInstance pk with
  | none => s
  | some inst =>
    let next_order := (s.maxCompletionOrder inst.instance_date).getD 0 + 1
    let s1 := s.updateInstance pk fun i =>
      { i with status := Status.complete, completion_order := some next_order,
               completed_at := some s.now, skipped_at := none }
    (s1.appendExecution pk EventType.completed).tick

/-- `today_uncomplete` (views.py lines 165–180). -/
def today_uncomplete (s : Store) (pk : Nat) : Store :=
  match s.findInstance pk with
  | none => s
  | some _ =>
    let s1 := s.updateInstance pk fun i =>
      { i with status := Status.incomplete, completion_order := none,
               completed_at := none, skipped_at := none }
    (s1.appendExecution pk EventType.uncompleted).tick

/-- `toggle_complete` (views.py lines 183–211): complete if currently
incomplete, otherwise (complete *or skipped*) uncomplete. -/
def toggle_complete (s : Store) (pk : Nat) : Store :=
  match s.findInstance pk with
  | none => s
  | some inst =>
    if inst.status == Status.incomplete then
      let next_order := (s.maxCompletionOrder inst.instance_date).getD 0 + 1
      let s1 := s.updateInstance pk fun i =>
        { i with status := Status.complete, completion_order := some next_order,
                 completed_at := some s.now, skipped_at := none }
      (s1.appendExecution pk EventType.completed).tick
    else
      let s1 := s.updateInstance pk fun i =>
        { i with status := Status.incomplete, completion_order := none,
                 completed_at := none, skipped_at := none }
      (s1.appendExecution pk EventType.uncompleted).tick

/-- `order_by("assigned_order", "task__priority")` comparison for the
incomplete-sibling list; ties (which SQL leaves unspecified) are resolved
stably by `sortLe`. -/
def siblingLe (s : Store) (a b : TaskInstance) : Bool :=
  a.assigned_order < b.assigned_order ||
    (a.assigned_order == b.assigned_order &&
      s.taskPriority a.taskId ≤ s.taskPriority b.taskId)

/-- `reorder` (views.py lines 214–256): a no-op unless the instance is
incomplete; otherwise swaps `assigned_order` with its neighbour in the
sorted incomplete list, nudging by ±1 if the swapped values are equal. -/
def reorder (s : Store) (pk : Nat) (direction : String) : Store :=
  match s.findInstance pk with
  | none => s
  | some inst =>
    if inst.status != Status.incomplete then s
    else
      let siblings := (s.instances.filter fun i =>
          i.instance_date == inst.instance_date &&
            i.status == Status.incomplete)|> sortLe (siblingLe s)
      let pks := siblings.map (·.id)
      match pks.findIdx? (· == pk) with
      | none => s
      | some idx =>
        let swapIdx? : Option Nat :=
          if direction == "up" && 0 < idx then some (idx - 1)
          else if direction == "down" && idx + 1 < pks.length then
            some (idx + 1)
          else none
        match swapIdx? with
        | none => s
        | some swapIdx =>
          match siblings.get? swapIdx with
          | none => s
          | some other =>
            let newInstOrder :=
              if other.assigned_order == inst.assigned_order then
                if direction == "up" then other.assigned_order - 1
                else other.assigned_order + 1
              else other.assigned_order
            (s.updateInstance pk fun i =>
                { i with assigned_order := newInstOrder }).updateInstance
              other.id fun i => { i with assigned_order := inst.assigned_order }

/-! ## Generator and rollover (`src/tasks/services.py`) -/

/-- The rule queryset filter of `generate_instances_for_date`:
`is_active=True, task__is_active=True, start_date__lte=target` and
`.exclude(end_date__lt=target)` (a NULL `end_date` survives the exclude). -/
def ruleApplies (s : Store) (target : Date) (r : TaskScheduleRule) : Bool :=
  r.is_active && s.taskActive r.taskId && Date.ble r.start_date target &&
    !(match r.end_date with
      | some e => Date.blt e target
      | none => false)

/-- `order_by("task__priority", "task__sort_order")` on the rule queryset. -/
def ruleLe (s : Store) (a b : TaskScheduleRule) : Bool :=
  s.taskPriority a.taskId < s.taskPriority b.taskId ||
    (s.taskPriority a.taskId == s.taskPriority b.taskId &&
      s.taskSortOrder a.taskId ≤ s.taskSortOrder b.taskId)

def Store.hasInstance (s : Store) (tid : Nat) (d : Date) : Bool :=
  s.instances.any fun i => i.taskId == tid && i.instance_date == d

/-- `get_or_create(task=…, instance_date=…, defaults=…)` on TaskInstance:
creates (appending the fresh row) only when no row with that
(task, instance_date) pair exists, and reports whether it created. -/
def Store.getOrCreateInstance (s : Store) (tid : Nat) (d : Date)
    (src : Source) (order : Int) : Store × Bool :=
  if s.hasInstance tid d then (s, false)
  else
    ({ s with
        instances := s.instances ++
          [{ id := s.nextId, taskId := tid, instance_date := d,
             status := Status.incomplete, source := src,
             assigned_order := order, completion_order := none,
             completed_at := none, skipped_at := none }],
        nextId := s.nextId + 1 },
      true)

/-- The filtered, ordered rule queryset of `generate_instances_for_date`
(services.py lines 33–43). -/
def genRules (s : Store) (target : Date) : List TaskScheduleRule :=
  sortLe (ruleLe s) (s.rules.filter (ruleApplies s target))

/-- One iteration of the matching loop (services.py lines 48–53). -/
def matchStep (target : Date) (acc : List Nat) (r : TaskScheduleRule) :
    Except String (List Nat) :=
  match rruleIncludesDate r.rrule r.start_date r.end_date target with
  | .error e => .error e
  | .ok b => .ok (if b then acc ++ [r.taskId] else acc)

/-- One iteration of the creation loop (services.py lines 56–66): the pair
`p` is `(assigned_order, task id)` from `enumerate(matching)`. -/
def genStep (target : Date) (st : Store × List Nat) (p : Nat × Nat) :
    Store × List Nat :=
  let r := st.1.getOrCreateInstance p.2 target Source.generated (Int.ofNat p.1)
  (r.1, if r.2 then st.2 ++ [p.2] else st.2)

/-- `generate_instances_for_date` (services.py lines 27–68); the returned
list holds the ids of the tasks for which a new instance was created (the
Python code returns the Task rows themselves).  An unparseable rrule makes
the whole call raise, before any row is written, since the matching loop
runs to completion before the creation loop starts. -/
def generate_instances_for_date (s : Store) (target : Date) :
    Except String (Store × List Nat) :=
  match (genRules s target).foldlM (matchStep target) [] with
  | .error e => .error e
  | .ok matching => .ok (matching.enum.foldl (genStep target) (s, []))

/-- `order_by("assigned_order", "task__priority", "task__sort_order")` on
yesterday's incomplete instances. -/
def staleLe (s : Store) (a b : TaskInstance) : Bool :=
  a.assigned_order < b.assigned_order ||
    (a.assigned_order == b.assigned_order &&
      (s.taskPriority a.taskId < s.taskPriority b.taskId ||
        (s.taskPriority a.taskId == s.taskPriority b.taskId &&
          s.taskSortOrder a.taskId ≤ s.taskSortOrder b.taskId)))

/-- One iteration of the rollover loop (services.py lines 100–111): skip
when an instance for the task already exists at `to_date` (without
consuming an order slot), else create at the running `next_order`.  The
*source* row `inst` is what gets appended to the result list. -/
def rollStep (to_date : Date) (st : Store × List TaskInstance × Int)
    (inst : TaskInstance) : Store × List TaskInstance × Int :=
  let r := st.1.getOrCreateInstance inst.taskId to_date Source.rolled_over
    st.2.2
  if r.2 then (r.1, st.2.1 ++ [inst], st.2.2 + 1)
  else (r.1, st.2.1, st.2.2)

/-- The base order for rollover:
`(max assigned_order among to_date's instances, or -1) + 1`. -/
def rolloverBase (s : Store) (to_date : Date) : Int :=
  (maxOpt ((s.instances.filter fun i => i.instance_date == to_date).map
    (·.assigned_order))).getD (-1) + 1

/-- `rollover_incomplete` (services.py lines 71–113).  Note the faithful
rendering of line 110: the code appends `inst` — the *source* row at
`from_date` — to `created`, not the row `get_or_create` made at `to_date`
(which it discards as `_`), although its docstring says it returns the
created instances. -/
def rollover_incomplete (s : Store) (from_date to_date : Date) :
    Store × List TaskInstance :=
  let stale := (s.instances.filter fun i =>
      i.instance_date == from_date && i.status == Status.incomplete &&
        s.taskActive i.taskId)|> sortLe (staleLe s)
  if stale.isEmpty then (s, [])
  else
    let res := stale.foldl (rollStep to_date) (s, [], rolloverBase s to_date)
    (res.1, res.2.1)

/-! ## Operation sequences of the completion engine -/

inductive EngineOp
  | complete (pk : Nat)
  | uncomplete (pk : Nat)
  | toggle (pk : Nat)

def applyOp (s : Store) : EngineOp → Store
  | .complete pk => today_complete s pk
  | .uncomplete pk => today_uncomplete s pk
  | .toggle pk => toggle_complete s pk

def runOps (s : Store) (ops : List EngineOp) : Store :=
  ops.foldl applyOp s

/-- The append-only execution log of one instance, in event order. -/
def execLog (s : Store) (pk : Nat) : List EventType :=
  (s.executions.filter fun e => e.task_instance == pk).map (·.event_type)

/-! ## The completion-order invariant (data-model invariants of §3) -/

/-- The two data-model invariants the completion engine maintains:
a non-null `completion_order` only on COMPLETE rows, and no two rows of
the same date holding the same non-null `completion_order`. -/
def completionInvList (l : List TaskInstance) : Prop :=
  (∀ i ∈ l, i.completion_order ≠ none → i.status = Status.complete) ∧
  (∀ i ∈ l, ∀ j ∈ l, i.id ≠ j.id → i.instance_date = j.instance_date →
    i.completion_order ≠ none → i.completion_order ≠ j.completion_order)

def completionInv (s : Store) : Prop := completionInvList s.instances

instance (l : List TaskInstance) : Decidable (completionInvList l) := by
  unfold completionInvList
  infer_instance

instance (s : Store) : Decidable (completionInv s) := by
  unfold completionInv
  infer_instance

/-! ## Rollover order assignment -/

/-- The consecutive integers `b, b+1, …, b+n-1`. -/
def intRange (b : Int) : Nat → List Int
  | 0 => []
  | n + 1 => b :: intRange (b + 1) n

/-! ## Weekday codes and rule-text construction

Structured weekday values and the canonical rule texts built from them,
used to quantify over the engine's BYDAY grammar. -/

inductive Wd
  | mo | tu | we | th | fr | sa | su
deriving DecidableEq

/-- dateutil's numeric weekday (MO = 0 … SU = 6). -/
def Wd.num : Wd → Nat
  | .mo => 0
  | .tu => 1
  | .we => 2
  | .th => 3
  | .fr => 4
  | .sa => 5
  | .su => 6

def Wd.codeChars : Wd → List Char
  | .mo => ['M', 'O']
  | .tu => ['T', 'U']
  | .we => ['W', 'E']
  | .th => ['T', 'H']
  | .fr => ['F', 'R']
  | .sa => ['S', 'A']
  | .su => ['S', 'U']

/-- The comma-joined BYDAY value, e.g. `MO,WE,FR`. -/
def joinCodes : List Wd → List Char
  | [] => []
  | [d] => d.codeChars
  | d :: rest => d.codeChars ++ ',' :: joinCodes rest

/-- The spec's window condition: `start_date <= d` and
(`end_date` is null or `d <= end_date`). -/
def inWindow (sd : Date) (ed : Option Date) (td : Date) : Bool :=
  Date.ble sd td &&
    (match ed with
     | none => true
     | some e => Date.ble td e)

/-- The rule text the engine stores: `FREQ=<name>` alone or with a
`;BYDAY=<codes>` part. -/
def ruleText (f : Freq) (days : List Wd) : String :=
  match days with
  | [] => "FREQ=" ++ f.name
  | d :: rest =>
    "FREQ=" ++ f.name ++ ";BYDAY=" ++ String.mk (joinCodes (d :: rest))

/-! ## Concrete fixtures for counterexamples and witnesses -/

def dJun15 : Date := ⟨2026, 6, 15⟩

def dJun14 : Date := ⟨2026, 6, 14⟩

/-- A freshly created incomplete manual instance. -/
def mkInst (pk tid : Nat) (d : Date) (ord : Int) : TaskInstance :=
  { id := pk, taskId := tid, instance_date := d,
    status := Status.incomplete, source := Source.manual,
    assigned_order := ord, completion_order := none,
    completed_at := none, skipped_at := none }

def c1Inst : TaskInstance := mkInst 10 0 dJun15 0

/-- One active task with a single incomplete instance on 2026-06-15. -/
def c1Store : Store :=
  { tasks := [⟨0, 0, 0, true⟩], rules := [], instances := [c1Inst],
    executions := [], nextId := 11, now := 0 }

/-- Two active tasks with two incomplete instances on 2026-06-15. -/
def c2Store : Store :=
  { tasks := [⟨0, 0, 0, true⟩, ⟨1, 0, 0, true⟩], rules := [],
    instances := [mkInst 10 0 dJun15 0, mkInst 11 1 dJun15 1],
    executions := [], nextId := 12, now := 0 }

/-- The spec §8 scenario: Complete(A), Complete(B), Uncomplete(A),
Complete(A). -/
def c2Ops : List EngineOp :=
  [.complete 10, .complete 11, .uncomplete 10, .complete 10]

/-- One generated-instance fixture: an active task with a DAILY rule and
an empty instance table. -/
def c6Store : Store :=
  { tasks := [⟨0, 0, 0, true⟩],
    rules := [⟨0, "FREQ=DAILY", ⟨2026, 1, 1⟩, none, true⟩],
    instances := [], executions := [], nextId := 0, now := 0 }

/-- The instance the first generation run creates on 2026-06-15. -/
def c6Inst : TaskInstance :=
  { id := 0, taskId := 0, instance_date := dJun15,
    status := Status.incomplete, source := Source.generated,
    assigned_order := 0, completion_order := none,
    completed_at := none, skipped_at := none }

def c6Store1 : Store :=
  { c6Store with instances := [c6Inst], nextId := 1 }

/-- Rollover fixture: one incomplete instance on 2026-06-14 (id 5) and
two instances already on 2026-06-15 with orders 0 and 1. -/
def c7Store : Store :=
  { tasks := [⟨0, 0, 0, true⟩, ⟨1, 0, 0, true⟩, ⟨2, 0, 0, true⟩],
    rules := [],
    instances := [mkInst 5 0 dJun14 0, mkInst 6 1 dJun15 0,
      mkInst 7 2 dJun15 1],
    executions := [], nextId := 8, now := 0 }

/-- An already-complete instance (id 20) holding completion order 1. -/
def c9Inst : TaskInstance :=
  { id := 20, taskId := 0, instance_date := dJun15,
    status := Status.complete, source := Source.manual,
    assigned_order := 0, completion_order := some 1,
    completed_at := some 0, skipped_at := none }

def c9Store : Store :=
  { tasks := [⟨0, 0, 0, true⟩], rules := [], instances := [c9Inst],
    executions := [], nextId := 21, now := 1 }

/-- A skipped instance (id 30) with a skipped_at timestamp. -/
def c10Inst : TaskInstance :=
  { id := 30, taskId := 0, instance_date := dJun15,
    status := Status.skipped, source := Source.manual,
    assigned_order := 0, completion_order := none,
    completed_at := none, skipped_at := some 0 }

def c10Store : Store :=
  { tasks := [⟨0, 0, 0, true⟩], rules := [], instances := [c10Inst],
    executions := [], nextId := 31, now := 1 }

theorem Date.ble_refl (a : Date) : Date.ble a a = true := by
  simp [Date.ble]

theorem Date.ble_of_not_ble {a b : Date} (h : Date.ble a b = false) :
    Date.ble b a = true := by
  simp only [Date.ble, decide_eq_false_iff_not, decide_eq_true_eq] at h ⊢
  omega

example : rruleIncludesDate "FREQ=DAILY" ⟨2026, 1, 1⟩ none ⟨2026, 6, 15⟩
    = Except.ok true := by decide
example : rruleIncludesDate "FREQ=DAILY" ⟨2026, 1, 1⟩ none ⟨2025, 12, 31⟩
    = Except.ok false := by decide
example : rruleIncludesDate "FREQ=WEEKLY;BYDAY=MO,WE,FR" ⟨2026, 1, 1⟩ none
    ⟨2026, 6, 15⟩ = Except.ok true := by decide
example : rruleIncludesDate "FREQ=WEEKLY;BYDAY=MO,WE,FR" ⟨2026, 1, 1⟩ none
    ⟨2026, 6, 16⟩ = Except.ok false := by decide
example : rruleIncludesDate "FREQ=DAILY" ⟨2026, 1, 1⟩ (some ⟨2026, 3, 1⟩)
    ⟨2026, 6, 15⟩ = Except.ok false := by decide
example : (⟨2026, 6, 15⟩ : Date).weekday = 0 := by decide
example : rruleIncludesDate "FREQ=BOGUS" ⟨2026, 1, 1⟩ none ⟨2026, 1, 1⟩
    = Except.error "invalid FREQ" := by decide

/-! ## Basic lemmas about the store operations -/

theorem instances_update (s : Store) (pk : Nat) (f : TaskInstance → TaskInstance) :
    (s.updateInstance pk f).instances
      = s.instances.map fun i => if i.id == pk then f i else i := rfl

theorem instances_appendExecution (s : Store) (pk : Nat) (e : EventType) :
    (s.appendExecution pk e).instances = s.instances := rfl

theorem instances_tick (s : Store) : s.tick.instances = s.instances := rfl

theorem executions_update (s : Store) (pk : Nat) (f : TaskInstance → TaskInstance) :
    (s.updateInstance pk f).executions = s.executions := rfl

theorem executions_appendExecution (s : Store) (pk : Nat) (e : EventType) :
    (s.appendExecution pk e).executions = s.executions ++ [⟨pk, e⟩] := rfl

theorem executions_tick (s : Store) : s.tick.executions = s.executions := rfl

/-- Updating the instance with key `pk` and then looking `pk` up finds the
updated row, provided the update does not change ids. -/
theorem find?_update (l : List TaskInstance) (pk : Nat)
    (f : TaskInstance → TaskInstance) (hf : ∀ i, (f i).id = i.id) :
    (l.map fun i => if i.id == pk then f i else i).find? (·.id == pk)
      = (l.find? (·.id == pk)).map f := by
  induction l with
  | nil => rfl
  | cons a l ih =>
    by_cases ha : a.id == pk
    · simp [List.find?, ha, hf]
    · simp only [List.map_cons, List.find?]
      rw [if_neg (by simpa using ha)]
      simp only [ha, cond_false]
      simpa [ha] using ih

/-- With no duplicate ids, every row carrying the found id *is* the found
row. -/
theorem find_eq_of_nodup {l : List TaskInstance} {pk : Nat}
    {inst : TaskInstance} (hf : l.find? (·.id == pk) = some inst)
    (hnd : (l.map (·.id)).Nodup) :
    ∀ e ∈ l, e.id = pk → e = inst := by
  induction l with
  | nil => simp at hf
  | cons a l ih =>
    simp only [List.map_cons, List.nodup_cons] at hnd
    intro e he hepk
    by_cases ha : a.id == pk
    · simp only [List.find?, ha, Option.some.injEq] at hf
      rcases List.mem_cons.mp he with he | he
      · exact hf ▸ he ▸ rfl
      · exfalso
        exact hnd.1 (by
          rw [List.mem_map]
          exact ⟨e, he, by simp only [beq_iff_eq] at ha; rw [hepk, ha]⟩)
    · simp only [List.find?, ha, cond_false] at hf
      rcases List.mem_cons.mp he with he | he
      · exact absurd (by simpa using he ▸ hepk) (by simpa using ha)
      · exact ih hf hnd.2 e he hepk

theorem le_maxOpt {l : List Int} {a : Int} (h : a ∈ l) :
    ∃ m, maxOpt l = some m ∧ a ≤ m := by
  induction l with
  | nil => simp at h
  | cons x l ih =>
    rcases List.mem_cons.mp h with h | h
    · cases hml : maxOpt l with
      | none => exact ⟨x, by simp [maxOpt, hml, h], h ▸ le_refl x⟩
      | some m => exact ⟨max x m, by simp [maxOpt, hml], h ▸ le_max_left x m⟩
    · obtain ⟨m, hm, ham⟩ := ih h
      exact ⟨max x m, by simp [maxOpt, hm], le_trans ham (le_max_right x m)⟩

theorem mem_completionOrders {l : List TaskInstance} {j : TaskInstance}
    {d : Date} {v : Int} (hj : j ∈ l) (hd : j.instance_date = d)
    (hs : j.status = Status.complete) (hv : j.completion_order = some v) :
    v ∈ completionOrders l d := by
  simp only [completionOrders, List.mem_filterMap]
  exact ⟨j, by simp [List.mem_filter, hj, hd, hs], hv⟩

/-- A held completion order on date `d` is strictly below
`Max(completion_order) + 1`. -/
theorem completionOrders_lt_next (s : Store) (d : Date) :
    ∀ v ∈ completionOrders s.instances d,
      v < (s.maxCompletionOrder d).getD 0 + 1 := by
  intro v hv
  obtain ⟨m, hm, hvm⟩ := le_maxOpt (l := completionOrders s.instances d) hv
  have : s.maxCompletionOrder d = some m := hm
  rw [this]
  simpa using lt_of_le_of_lt hvm (lt_add_one m)

/-- Pointwise updates that touch no COMPLETE row (before or after) leave
the held completion orders of every date unchanged. -/
theorem completionOrders_map_eq (l : List TaskInstance) (d : Date)
    (g : TaskInstance → TaskInstance)
    (h : ∀ e ∈ l, g e = e ∨
      (e.status ≠ Status.complete ∧ (g e).status ≠ Status.complete)) :
    completionOrders (l.map g) d = completionOrders l d := by
  induction l with
  | nil => rfl
  | cons a l ih =>
    have ha := h a (by simp)
    have hrest : ∀ e ∈ l, g e = e ∨
        (e.status ≠ Status.complete ∧ (g e).status ≠ Status.complete) :=
      fun e he => h e (by simp [he])
    rcases ha with ha | ⟨ha1, ha2⟩
    · simp only [List.map_cons, completionOrders, List.filter_cons, ha]
      by_cases hcond : a.instance_date == d && a.status == Status.complete
      · simp only [hcond, if_true, List.filterMap_cons]
        have := ih hrest
        simp only [completionOrders] at this
        cases a.completion_order <;> simp [this]
      · simp only [hcond, if_false]
        exact ih hrest
    · simp only [List.map_cons, completionOrders, List.filter_cons]
      have h1 : (a.instance_date == d && a.status == Status.complete) = false := by
        simp only [Bool.and_eq_false_iff, beq_eq_false_iff_ne]
        right; exact ha1
      have h2 : ((g a).instance_date == d && (g a).status == Status.complete)
          = false := by
        simp only [Bool.and_eq_false_iff, beq_eq_false_iff_ne]
        right; exact ha2
      simp only [h1, h2, if_false]
      exact ih hrest

/-- Marking the row `pk` complete with an order strictly above everything
held on its date `d` preserves the invariant, provided every row with id
`pk` is dated `d`. -/
theorem completionInvList_complete (l : List TaskInstance) (pk : Nat)
    (d : Date) (nxt : Int) (ts : Option Nat)
    (hd : ∀ e ∈ l, e.id = pk → e.instance_date = d)
    (hnxt : ∀ v ∈ completionOrders l d, v < nxt)
    (h : completionInvList l) :
    completionInvList (l.map fun i => if i.id == pk then
      { i with status := Status.complete, completion_order := some nxt,
               completed_at := ts, skipped_at := none } else i) := by
  obtain ⟨h1, h2⟩ := h
  constructor
  · intro i' hi'
    obtain ⟨e, he, rfl⟩ := List.mem_map.mp hi'
    by_cases hepk : e.id == pk
    · simp [hepk]
    · simp only [hepk, if_neg, Bool.false_eq_true, not_false_iff, if_false]
      exact h1 e he
  · intro i' hi' j' hj' hij hdate hio
    obtain ⟨a, ha, rfl⟩ := List.mem_map.mp hi'
    obtain ⟨b, hb, rfl⟩ := List.mem_map.mp hj'
    by_cases hapk : a.id == pk <;> by_cases hbpk : b.id == pk
    · exfalso
      apply hij
      simp only [hapk, hbpk, if_true]
      simp only [beq_iff_eq] at hapk hbpk
      show a.id = b.id
      rw [hapk, hbpk]
    · -- a is the completed row, b is untouched
      simp only [hapk, if_true, hbpk, Bool.false_eq_true, if_false] at hdate hio ⊢
      intro hcontra
      cases hob : b.completion_order with
      | none => rw [hob] at hcontra; simp at hcontra
      | some v =>
        rw [hob] at hcontra
        have hbc : b.status = Status.complete := h1 b hb (by simp [hob])
        have hbd : b.instance_date = d := by
          have had : a.instance_date = d := hd a ha (by simpa using hapk)
          rw [← hdate, had]
        have hvmem : v ∈ completionOrders l d := mem_completionOrders hb hbd hbc hob
        have := hnxt v hvmem
        simp only [Option.some.injEq] at hcontra
        omega
    · -- b is the completed row, a is untouched
      simp only [hapk, Bool.false_eq_true, if_false, hbpk, if_true] at hdate hio ⊢
      intro hcontra
      cases hoa : a.completion_order with
      | none => exact absurd hoa hio
      | some v =>
        rw [hoa] at hcontra
        have hac : a.status = Status.complete := h1 a ha (by simp [hoa])
        have had : a.instance_date = d := by
          have hbd : b.instance_date = d := hd b hb (by simpa using hbpk)
          rw [hdate, hbd]
        have hvmem : v ∈ completionOrders l d := mem_completionOrders ha had hac hoa
        have := hnxt v hvmem
        simp only [Option.some.injEq] at hcontra
        omega
    · simp only [hapk, Bool.false_eq_true, if_false, hbpk] at hdate hio hij ⊢
      exact h2 a ha b hb hij hdate hio

/-- Clearing the row `pk` back to incomplete preserves the invariant. -/
theorem completionInvList_uncomplete (l : List TaskInstance) (pk : Nat)
    (h : completionInvList l) :
    completionInvList (l.map fun i => if i.id == pk then
      { i with status := Status.incomplete, completion_order := none,
               completed_at := none, skipped_at := none } else i) := by
  obtain ⟨h1, h2⟩ := h
  constructor
  · intro i' hi'
    obtain ⟨e, he, rfl⟩ := List.mem_map.mp hi'
    by_cases hepk : e.id == pk
    · simp [hepk]
    · simp only [hepk, Bool.false_eq_true, if_false]
      exact h1 e he
  · intro i' hi' j' hj' hij hdate hio
    obtain ⟨a, ha, rfl⟩ := List.mem_map.mp hi'
    obtain ⟨b, hb, rfl⟩ := List.mem_map.mp hj'
    by_cases hapk : a.id == pk <;> by_cases hbpk : b.id == pk
    · exfalso
      apply hij
      simp only [hapk, hbpk, if_true]
      simp only [beq_iff_eq] at hapk hbpk
      show a.id = b.id
      rw [hapk, hbpk]
    · simp only [hapk, if_true] at hio
      simp at hio
    · simp only [hapk, Bool.false_eq_true, if_false, hbpk, if_true] at hio ⊢
      cases hoa : a.completion_order with
      | none => exact absurd hoa hio
      | some v => simp
    · simp only [hapk, Bool.false_eq_true, if_false, hbpk] at hdate hio hij ⊢
      exact h2 a ha b hb hij hdate hio

theorem idsOf_map_update (l : List TaskInstance) (pk : Nat)
    (f : TaskInstance → TaskInstance) (hf : ∀ i, (f i).id = i.id) :
    (l.map fun i => if i.id == pk then f i else i).map (·.id)
      = l.map (·.id) := by
  rw [List.map_map]
  apply List.map_congr_left
  intro a _
  by_cases ha : a.id = pk <;> simp [ha, hf]

/-- `maxCompletionOrder` is the max of the held orders of the date. -/
theorem maxCompletionOrder_eq (s : Store) (d : Date) :
    s.maxCompletionOrder d = maxOpt (completionOrders s.instances d) := rfl

theorem completionInv_today_complete (s : Store) (pk : Nat)
    (hnd : (s.instances.map (·.id)).Nodup) (h : completionInv s) :
    completionInv (today_complete s pk) ∧
      ((today_complete s pk).instances.map (·.id)).Nodup := by
  unfold today_complete
  cases hfind : s.findInstance pk with
  | none => exact ⟨h, hnd⟩
  | some inst =>
    simp only [completionInv, instances_tick, instances_appendExecution,
      instances_update]
    constructor
    · apply completionInvList_complete s.instances pk inst.instance_date _ _
      · intro e he hepk
        rw [find_eq_of_nodup hfind hnd e he hepk]
      · intro v hv
        have := completionOrders_lt_next s inst.instance_date v hv
        exact this
      · exact h
    · rw [idsOf_map_update]
      · exact hnd
      · intro i; rfl

theorem completionInv_today_uncomplete (s : Store) (pk : Nat)
    (hnd : (s.instances.map (·.id)).Nodup) (h : completionInv s) :
    completionInv (today_uncomplete s pk) ∧
      ((today_uncomplete s pk).instances.map (·.id)).Nodup := by
  unfold today_uncomplete
  cases hfind : s.findInstance pk with
  | none => exact ⟨h, hnd⟩
  | some inst =>
    simp only [completionInv, instances_tick, instances_appendExecution,
      instances_update]
    refine ⟨completionInvList_uncomplete s.instances pk h, ?_⟩
    rw [idsOf_map_update]
    · exact hnd
    · intro i; rfl

theorem completionInv_toggle_complete (s : Store) (pk : Nat)
    (hnd : (s.instances.map (·.id)).Nodup) (h : completionInv s) :
    completionInv (toggle_complete s pk) ∧
      ((toggle_complete s pk).instances.map (·.id)).Nodup := by
  unfold toggle_complete
  cases hfind : s.findInstance pk with
  | none => exact ⟨h, hnd⟩
  | some inst =>
    by_cases hst : inst.status == Status.incomplete
    · simp only [hst, if_true, completionInv, instances_tick,
        instances_appendExecution, instances_update]
      constructor
      · apply completionInvList_complete s.instances pk inst.instance_date _ _
        · intro e he hepk
          rw [find_eq_of_nodup hfind hnd e he hepk]
        · intro v hv
          exact completionOrders_lt_next s inst.instance_date v hv
        · exact h
      · rw [idsOf_map_update]
        · exact hnd
        · intro i; rfl
    · simp only [hst, Bool.false_eq_true, if_false, completionInv,
        instances_tick, instances_appendExecution, instances_update]
      refine ⟨completionInvList_uncomplete s.instances pk h, ?_⟩
      rw [idsOf_map_update]
      · exact hnd
      · intro i; rfl

/-- One completion-engine operation preserves the invariant and the
distinctness of ids. -/
theorem completionInv_applyOp (s : Store) (op : EngineOp)
    (hnd : (s.instances.map (·.id)).Nodup) (h : completionInv s) :
    completionInv (applyOp s op) ∧
      ((applyOp s op).instances.map (·.id)).Nodup := by
  cases op with
  | complete pk => exact completionInv_today_complete s pk hnd h
  | uncomplete pk => exact completionInv_today_uncomplete s pk hnd h
  | toggle pk => exact completionInv_toggle_complete s pk hnd h

theorem findInstance_update_self (s : Store) (pk : Nat)
    (f : TaskInstance → TaskInstance) (hf : ∀ i, (f i).id = i.id) :
    (s.updateInstance pk f).findInstance pk = (s.findInstance pk).map f := by
  unfold Store.findInstance
  rw [instances_update]
  exact find?_update s.instances pk f hf

theorem findInstance_appendExecution (s : Store) (pk pk' : Nat)
    (e : EventType) : (s.appendExecution pk' e).findInstance pk
      = s.findInstance pk := rfl

theorem findInstance_tick (s : Store) (pk : Nat) :
    s.tick.findInstance pk = s.findInstance pk := rfl

theorem toggle_eq_of_incomplete (s : Store) (pk : Nat) (inst : TaskInstance)
    (hf : s.findInstance pk = some inst)
    (hst : inst.status = Status.incomplete) :
    toggle_complete s pk =
      ((s.updateInstance pk fun i =>
        { i with status := Status.complete,
                 completion_order :=
                   some ((s.maxCompletionOrder inst.instance_date).getD 0 + 1),
                 completed_at := some s.now,
                 skipped_at := none }).appendExecution
        pk EventType.completed).tick := by
  unfold toggle_complete
  rw [hf]
  simp [hst]

theorem toggle_eq_of_not_incomplete (s : Store) (pk : Nat)
    (inst : TaskInstance) (hf : s.findInstance pk = some inst)
    (hst : inst.status ≠ Status.incomplete) :
    toggle_complete s pk =
      ((s.updateInstance pk fun i =>
        { i with status := Status.incomplete, completion_order := none,
                 completed_at := none, skipped_at := none }).appendExecution
        pk EventType.uncompleted).tick := by
  unfold toggle_complete
  rw [hf]
  simp [hst]

/-- C1 (amended): on an incomplete instance, Complete–Uncomplete–Complete
via the toggle endpoint, with no other operation in between, reassigns the
*same* completion order as the first Complete (the abandoned slot *is*
recovered, because the re-completion takes `Max(completion_order) + 1`
over the other complete instances of the date, which are unchanged); each
Complete does assign an order strictly greater than every order held on
the date at that moment (a held slot is never reused); and the execution
log gains exactly [completed, uncompleted, completed] in that order. -/
theorem claim_C1_toggle_round_trip (s : Store) (pk : Nat) (inst : TaskInstance)
    (hf : s.findInstance pk = some inst)
    (hnd : (s.instances.map (·.id)).Nodup)
    (hst : inst.status = Status.incomplete) :
    ((toggle_complete s pk).findInstance pk).map (·.completion_order)
        = some (some ((s.maxCompletionOrder inst.instance_date).getD 0 + 1)) ∧
    ((toggle_complete (toggle_complete (toggle_complete s pk) pk) pk
        ).findInstance pk).map (·.completion_order)
        = some (some ((s.maxCompletionOrder inst.instance_date).getD 0 + 1)) ∧
    (∀ v ∈ completionOrders s.instances inst.instance_date,
        v < (s.maxCompletionOrder inst.instance_date).getD 0 + 1) ∧
    execLog (toggle_complete (toggle_complete (toggle_complete s pk) pk) pk)
        pk = execLog s pk ++
          [EventType.completed, EventType.uncompleted, EventType.completed] := by
  have hfid : inst.id = pk := by
    have := List.find?_some hf
    simpa using this
  have h1 := toggle_eq_of_incomplete s pk inst hf hst
  have find1 : (toggle_complete s pk).findInstance pk = some
      { inst with status := Status.complete,
                  completion_order :=
                    some ((s.maxCompletionOrder inst.instance_date).getD 0 + 1),
                  completed_at := some s.now, skipped_at := none } := by
    rw [h1, findInstance_tick, findInstance_appendExecution,
      findInstance_update_self]
    · rw [hf]; rfl
    · intro i; rfl
  have h2 := toggle_eq_of_not_incomplete (toggle_complete s pk) pk _ find1
    (by simp)
  have find2 : ((toggle_complete (toggle_complete s pk) pk)).findInstance pk
      = some { inst with status := Status.incomplete, completion_order := none,
                         completed_at := none, skipped_at := none } := by
    rw [h2, findInstance_tick, findInstance_appendExecution,
      findInstance_update_self]
    · rw [find1]; rfl
    · intro i; rfl
  have hmax : (toggle_complete (toggle_complete s pk) pk).maxCompletionOrder
      inst.instance_date = s.maxCompletionOrder inst.instance_date := by
    rw [maxCompletionOrder_eq, maxCompletionOrder_eq]
    have hinst2 : (toggle_complete (toggle_complete s pk) pk).instances
        = s.instances.map (fun i =>
            (fun j => if j.id == pk then
              { j with status := Status.incomplete, completion_order := none,
                       completed_at := none, skipped_at := none } else j)
            (if i.id == pk then
              { i with status := Status.complete,
                       completion_order := some
                         ((s.maxCompletionOrder inst.instance_date).getD 0 + 1),
                       completed_at := some s.now, skipped_at := none }
             else i)) := by
      rw [h2, instances_tick, instances_appendExecution, instances_update,
        h1, instances_tick, instances_appendExecution, instances_update,
        List.map_map]
      rfl
    rw [hinst2]
    refine congrArg maxOpt ?_
    apply completionOrders_map_eq
    intro e he
    by_cases hepk : e.id = pk
    · right
      have heInst : e = inst := find_eq_of_nodup hf hnd e he hepk
      constructor
      · rw [heInst, hst]; simp
      · simp [hepk, heInst, hfid]
    · left
      simp [hepk]
  have find3 : ((toggle_complete (toggle_complete (toggle_complete s pk) pk)
      pk)).findInstance pk = some
      { inst with status := Status.complete,
                  completion_order :=
                    some ((s.maxCompletionOrder inst.instance_date).getD 0 + 1),
                  completed_at :=
                    some (toggle_complete (toggle_complete s pk) pk).now,
                  skipped_at := none } := by
    have h3 := toggle_eq_of_incomplete _ pk _ find2 rfl
    rw [h3, findInstance_tick, findInstance_appendExecution,
      findInstance_update_self]
    · rw [find2]
      simp only [Option.map_some]
      have heq : ((toggle_complete (toggle_complete s pk) pk
          ).maxCompletionOrder
          ({ inst with status := Status.incomplete, completion_order := none,
                       completed_at := none,
                       skipped_at := none } : TaskInstance).instance_date)
          = s.maxCompletionOrder inst.instance_date := hmax
      simp [hfid, heq]
    · intro i; rfl
  refine ⟨?_, ?_, completionOrders_lt_next s inst.instance_date, ?_⟩
  · rw [find1]; rfl
  · rw [find3]; rfl
  · have h3 := toggle_eq_of_incomplete _ pk _ find2 rfl
    rw [execLog, h3, executions_tick, executions_appendExecution,
      executions_update, h2, executions_tick, executions_appendExecution,
      executions_update, h1, executions_tick, executions_appendExecution,
      executions_update]
    simp [execLog, List.filter_append]

/-! ## Generator idempotence -/

theorem hasInstance_getOrCreate (s : Store) (tid : Nat) (d : Date)
    (src : Source) (order : Int) (t : Nat) (d' : Date)
    (h : s.hasInstance t d' = true) :
    (s.getOrCreateInstance tid d src order).1.hasInstance t d' = true := by
  unfold Store.getOrCreateInstance
  by_cases hex : s.hasInstance tid d
  · simp [hex, h]
  · simp only [hex, Bool.false_eq_true, if_false]
    unfold Store.hasInstance at h ⊢
    simp only [List.any_append]
    simp [h]

theorem hasInstance_getOrCreate_self (s : Store) (tid : Nat) (d : Date)
    (src : Source) (order : Int) :
    (s.getOrCreateInstance tid d src order).1.hasInstance tid d = true := by
  unfold Store.getOrCreateInstance
  by_cases hex : s.hasInstance tid d
  · simp [hex]
  · simp only [hex, Bool.false_eq_true, if_false]
    unfold Store.hasInstance
    simp

theorem getOrCreate_of_hasInstance (s : Store) (tid : Nat) (d : Date)
    (src : Source) (order : Int) (h : s.hasInstance tid d = true) :
    s.getOrCreateInstance tid d src order = (s, false) := by
  unfold Store.getOrCreateInstance
  simp [h]

theorem genStep_preserves_hasInstance (target : Date) (st : Store × List Nat)
    (p : Nat × Nat) (t : Nat) (d' : Date)
    (h : st.1.hasInstance t d' = true) :
    ((genStep target st p).1).hasInstance t d' = true := by
  unfold genStep
  exact hasInstance_getOrCreate _ _ _ _ _ _ _ h

theorem genFold_preserves_hasInstance (target : Date) (L : List (Nat × Nat))
    (st : Store × List Nat) (t : Nat) (d' : Date)
    (h : st.1.hasInstance t d' = true) :
    ((L.foldl (genStep target) st).1).hasInstance t d' = true := by
  induction L generalizing st with
  | nil => exact h
  | cons p L ih =>
    exact ih (genStep target st p) (genStep_preserves_hasInstance _ _ _ _ _ h)

theorem genFold_creates_all (target : Date) (L : List (Nat × Nat))
    (st : Store × List Nat) :
    ∀ p ∈ L, ((L.foldl (genStep target) st).1).hasInstance p.2 target
      = true := by
  induction L generalizing st with
  | nil => intro p hp; simp at hp
  | cons q L ih =>
    intro p hp
    rcases List.mem_cons.mp hp with hp | hp
    · subst hp
      rw [List.foldl_cons]
      apply genFold_preserves_hasInstance
      show ((genStep target st p).1).hasInstance p.2 target = true
      unfold genStep
      exact hasInstance_getOrCreate_self _ _ _ _ _
    · exact ih (genStep target st q) p hp

theorem genStep_of_hasInstance (target : Date) (st : Store × List Nat)
    (p : Nat × Nat) (h : st.1.hasInstance p.2 target = true) :
    genStep target st p = st := by
  unfold genStep
  rw [getOrCreate_of_hasInstance _ _ _ _ _ h]
  simp

theorem genFold_noop (target : Date) (L : List (Nat × Nat))
    (st : Store × List Nat)
    (h : ∀ p ∈ L, st.1.hasInstance p.2 target = true) :
    L.foldl (genStep target) st = st := by
  induction L generalizing st with
  | nil => rfl
  | cons q L ih =>
    have hq := genStep_of_hasInstance target st q (h q (by simp))
    rw [List.foldl_cons, hq]
    exact ih st fun p hp => h p (by simp [hp])

theorem getOrCreate_config (s : Store) (tid : Nat) (d : Date) (src : Source)
    (order : Int) :
    (s.getOrCreateInstance tid d src order).1.tasks = s.tasks ∧
      (s.getOrCreateInstance tid d src order).1.rules = s.rules ∧
      ∃ tail, (s.getOrCreateInstance tid d src order).1.instances
        = s.instances ++ tail := by
  unfold Store.getOrCreateInstance
  by_cases hex : s.hasInstance tid d
  · simp [hex]
  · simp [hex]

theorem genFold_config (target : Date) (L : List (Nat × Nat))
    (st : Store × List Nat) :
    ((L.foldl (genStep target) st).1).tasks = st.1.tasks ∧
      ((L.foldl (genStep target) st).1).rules = st.1.rules ∧
      ∃ tail, ((L.foldl (genStep target) st).1).instances
        = st.1.instances ++ tail := by
  induction L generalizing st with
  | nil => exact ⟨rfl, rfl, [], by simp⟩
  | cons q L ih =>
    obtain ⟨h1, h2, tail, h3⟩ := ih (genStep target st q)
    obtain ⟨g1, g2, tail0, g3⟩ := getOrCreate_config st.1 q.2 target
      Source.generated (Int.ofNat q.1)
    refine ⟨?_, ?_, tail0 ++ tail, ?_⟩
    · rw [List.foldl_cons] at *
      rw [h1]; exact g1
    · rw [List.foldl_cons] at *
      rw [h2]; exact g2
    · rw [List.foldl_cons] at *
      rw [h3]
      show (genStep target st q).1.instances ++ tail = _
      unfold genStep
      rw [g3, List.append_assoc]

theorem taskPriority_congr {s s' : Store} (h : s'.tasks = s.tasks) :
    s'.taskPriority = s.taskPriority := by
  funext tid
  unfold Store.taskPriority Store.findTask
  rw [h]

theorem taskSortOrder_congr {s s' : Store} (h : s'.tasks = s.tasks) :
    s'.taskSortOrder = s.taskSortOrder := by
  funext tid
  unfold Store.taskSortOrder Store.findTask
  rw [h]

theorem taskActive_congr {s s' : Store} (h : s'.tasks = s.tasks) :
    s'.taskActive = s.taskActive := by
  funext tid
  unfold Store.taskActive Store.findTask
  rw [h]

theorem genRules_congr {s s' : Store} (htasks : s'.tasks = s.tasks)
    (hrules : s'.rules = s.rules) (target : Date) :
    genRules s' target = genRules s target := by
  unfold genRules ruleApplies ruleLe
  rw [taskActive_congr htasks, hrules, taskPriority_congr htasks,
    taskSortOrder_congr htasks]

/-- C6: generation is idempotent — if `generate_instances_for_date`
succeeds, producing store `s1`, then running it again on `s1` for the same
date returns `s1` unchanged with an empty created list; moreover the first
run only appends new rows, leaving every pre-existing instance (any
source) untouched in place. -/
theorem claim_C6_generate_idempotent (s s1 : Store) (d : Date) (l : List Nat)
    (h : generate_instances_for_date s d = Except.ok (s1, l)) :
    generate_instances_for_date s1 d = Except.ok (s1, []) ∧
      ∃ tail, s1.instances = s.instances ++ tail := by
  unfold generate_instances_for_date at h ⊢
  cases hm : (genRules s d).foldlM (matchStep d) [] with
  | error e => rw [hm] at h; simp at h
  | ok matching =>
    rw [hm] at h
    simp only [Except.ok.injEq] at h
    obtain ⟨htasks, hrules, tail, hinst⟩ :=
      genFold_config d matching.enum (s, [])
    rw [h] at htasks hrules hinst
    simp only at htasks hrules hinst
    have hgr : genRules s1 d = genRules s d := genRules_congr htasks hrules d
    have hall : ∀ p ∈ matching.enum, s1.hasInstance p.2 d = true := by
      intro p hp
      have hc := genFold_creates_all d matching.enum (s, []) p hp
      rw [h] at hc
      exact hc
    constructor
    · rw [hgr, hm]
      show Except.ok (matching.enum.foldl (genStep d) (s1, []))
        = Except.ok (s1, [])
      rw [genFold_noop d matching.enum (s1, []) hall]
    · exact ⟨tail, hinst⟩

theorem intRange_succ (b : Int) (n : Nat) :
    intRange b (n + 1) = b :: intRange (b + 1) n := rfl

theorem getOrCreate_of_not_hasInstance (s : Store) (tid : Nat) (d : Date)
    (src : Source) (order : Int) (h : s.hasInstance tid d = false) :
    s.getOrCreateInstance tid d src order =
      ({ s with
          instances := s.instances ++
            [{ id := s.nextId, taskId := tid, instance_date := d,
               status := Status.incomplete, source := src,
               assigned_order := order, completion_order := none,
               completed_at := none, skipped_at := none }],
          nextId := s.nextId + 1 }, true) := by
  unfold Store.getOrCreateInstance
  simp [h]

theorem rollFold_spec (td : Date) (L : List TaskInstance) (s0 : Store)
    (cr : List TaskInstance) (n : Int) :
    ∃ rows, (L.foldl (rollStep td) (s0, cr, n)).1.instances
        = s0.instances ++ rows ∧
      rows.map (·.assigned_order) = intRange n rows.length ∧
      (∀ r ∈ rows, r.instance_date = td ∧ r.source = Source.rolled_over ∧
        s0.hasInstance r.taskId td = false) := by
  induction L generalizing s0 cr n with
  | nil =>
    refine ⟨[], by simp, rfl, by simp⟩
  | cons inst L ih =>
    rw [List.foldl_cons]
    by_cases hex : s0.hasInstance inst.taskId td
    · have hstep : rollStep td (s0, cr, n) inst = (s0, cr, n) := by
        unfold rollStep
        rw [getOrCreate_of_hasInstance _ _ _ _ _ hex]
        simp
      rw [hstep]
      exact ih s0 cr n
    · have hexf : s0.hasInstance inst.taskId td = false := by
        simpa using hex
      have hstep : rollStep td (s0, cr, n) inst =
          ({ s0 with
              instances := s0.instances ++
                [{ id := s0.nextId, taskId := inst.taskId, instance_date := td,
                   status := Status.incomplete, source := Source.rolled_over,
                   assigned_order := n, completion_order := none,
                   completed_at := none, skipped_at := none }],
              nextId := s0.nextId + 1 }, cr ++ [inst], n + 1) := by
        unfold rollStep
        rw [getOrCreate_of_not_hasInstance _ _ _ _ _ hexf]
        simp
      rw [hstep]
      obtain ⟨rows', h1, h2, h3⟩ := ih _ (cr ++ [inst]) (n + 1)
      refine ⟨{ id := s0.nextId, taskId := inst.taskId, instance_date := td,
                status := Status.incomplete, source := Source.rolled_over,
                assigned_order := n, completion_order := none,
                completed_at := none, skipped_at := none } :: rows',
        ?_, ?_, ?_⟩
      · rw [h1]
        simp
      · simp only [List.map_cons, List.length_cons, h2, intRange_succ]
      · intro r hr
        rcases List.mem_cons.mp hr with hr | hr
        · subst hr
          exact ⟨rfl, rfl, hexf⟩
        · obtain ⟨hr1, hr2, hr3⟩ := h3 r hr
          refine ⟨hr1, hr2, ?_⟩
          by_cases hs0 : s0.hasInstance r.taskId td
          · exfalso
            have : ({ s0 with
                instances := s0.instances ++
                  [{ id := s0.nextId, taskId := inst.taskId,
                     instance_date := td, status := Status.incomplete,
                     source := Source.rolled_over, assigned_order := n,
                     completion_order := none, completed_at := none,
                     skipped_at := none }],
                nextId := s0.nextId + 1 } : Store).hasInstance r.taskId td
                = true := by
              unfold Store.hasInstance at hs0 ⊢
              simp only [List.any_append]
              simp [hs0]
            rw [this] at hr3
            simp at hr3
          · simpa using hs0

/-- C8: rollover appends its newly created rows with consecutive
`assigned_order` values starting at
`(max assigned_order among toDate's instances, or -1) + 1`
(`rolloverBase`), every created row is dated `toDate` with source
rolled_over, and a task that already has an instance at `toDate` gets no
new row (and, by the consecutiveness of the created orders, consumes no
order slot). -/
theorem claim_C8_rollover_orders (s : Store) (fd td : Date) :
    ∃ rows, (rollover_incomplete s fd td).1.instances = s.instances ++ rows ∧
      rows.map (·.assigned_order) = intRange (rolloverBase s td) rows.length ∧
      (∀ r ∈ rows, r.instance_date = td ∧ r.source = Source.rolled_over ∧
        s.hasInstance r.taskId td = false) := by
  simp only [rollover_incomplete]
  split
  · exact ⟨[], by simp, rfl, by simp⟩
  · exact rollFold_spec td _ s [] (rolloverBase s td)

/-! ## Reorder guard and unconditional completion -/

theorem today_complete_eq (s : Store) (pk : Nat) (inst : TaskInstance)
    (hf : s.findInstance pk = some inst) :
    today_complete s pk = ((s.updateInstance pk fun i =>
      { i with status := Status.complete,
               completion_order :=
                 some ((s.maxCompletionOrder inst.instance_date).getD 0 + 1),
               completed_at := some s.now, skipped_at := none }).appendExecution
      pk EventType.completed).tick := by
  unfold today_complete
  rw [hf]

theorem reorder_noop_of_nonincomplete (s : Store) (pk : Nat)
    (inst : TaskInstance) (dir : String) (hf : s.findInstance pk = some inst)
    (hst : inst.status ≠ Status.incomplete) :
    reorder s pk dir = s := by
  unfold reorder
  rw [hf]
  simp [hst]

/-- C10: toggling an instance whose status is skipped takes the
uncomplete branch: status becomes incomplete, completion_order,
completed_at and skipped_at become null, and one `uncompleted` execution
record is appended. -/
theorem claim_C10_toggle_skipped (s : Store) (pk : Nat) (inst : TaskInstance)
    (hf : s.findInstance pk = some inst)
    (hst : inst.status = Status.skipped) :
    (toggle_complete s pk).findInstance pk = some
      { inst with status := Status.incomplete, completion_order := none,
                  completed_at := none, skipped_at := none } ∧
    (toggle_complete s pk).executions
      = s.executions ++ [⟨pk, EventType.uncompleted⟩] := by
  have h := toggle_eq_of_not_incomplete s pk inst hf (by rw [hst]; decide)
  constructor
  · rw [h, findInstance_tick, findInstance_appendExecution,
      findInstance_update_self]
    · rw [hf]; rfl
    · intro i; rfl
  · rw [h, executions_tick, executions_appendExecution, executions_update]

/-! ## Parser lemmas -/

theorem codeChars_good (d : Wd) :
    ∀ ch ∈ d.codeChars,
      ch ∈ [',', 'M', 'O', 'T', 'U', 'W', 'E', 'H', 'F', 'R', 'S', 'A'] := by
  cases d <;> decide

theorem joinCodes_good (days : List Wd) :
    ∀ ch ∈ joinCodes days,
      ch ∈ [',', 'M', 'O', 'T', 'U', 'W', 'E', 'H', 'F', 'R', 'S', 'A'] := by
  induction days with
  | nil => intro ch hch; simp [joinCodes] at hch
  | cons d rest ih =>
    cases rest with
    | nil => exact codeChars_good d
    | cons d2 rest2 =>
      intro ch hch
      have : joinCodes (d :: d2 :: rest2)
          = d.codeChars ++ ',' :: joinCodes (d2 :: rest2) := rfl
      rw [this] at hch
      rcases List.mem_append.mp hch with h | h
      · exact codeChars_good d ch h
      · rcases List.mem_cons.mp h with h | h
        · simp [h]
        · exact ih ch h

theorem joinCodes_no_semicolon (days : List Wd) : ';' ∉ joinCodes days := by
  intro h
  have := joinCodes_good days ';' h
  simp at this

theorem joinCodes_no_eq (days : List Wd) : '=' ∉ joinCodes days := by
  intro h
  have := joinCodes_good days '=' h
  simp at this

theorem joinCodes_toUpper (days : List Wd) :
    (joinCodes days).map Char.toUpper = joinCodes days := by
  have hup : ∀ ch ∈ [',', 'M', 'O', 'T', 'U', 'W', 'E', 'H', 'F', 'R',
      'S', 'A'], Char.toUpper ch = ch := by decide
  have : ∀ ch ∈ joinCodes days, Char.toUpper ch = ch :=
    fun ch hch => hup ch (joinCodes_good days ch hch)
  calc (joinCodes days).map Char.toUpper
      = (joinCodes days).map id := List.map_congr_left this
    _ = joinCodes days := List.map_id _

theorem splitOnChar_not_mem (c : Char) (l : List Char) (h : c ∉ l) :
    splitOnChar c l = [l] := by
  induction l with
  | nil => rfl
  | cons x xs ih =>
    simp only [List.mem_cons, not_or] at h
    have hx : ¬(x = c) := fun hc => h.1 hc.symm
    unfold splitOnChar
    rw [ih h.2]
    simp [hx]

theorem splitOnChar_append (c : Char) (l1 l2 : List Char) (h : c ∉ l1) :
    splitOnChar c (l1 ++ c :: l2) = l1 :: splitOnChar c l2 := by
  induction l1 with
  | nil => simp [splitOnChar]
  | cons x xs ih =>
    simp only [List.mem_cons, not_or] at h
    have hx : ¬(x = c) := fun hc => h.1 hc.symm
    have hxs := ih h.2
    show splitOnChar c (x :: (xs ++ c :: l2)) = (x :: xs) :: splitOnChar c l2
    unfold splitOnChar
    rw [hxs]
    simp [hx]
    cases l2 <;> rfl

theorem parseByday_joinCodes (d : Wd) (rest : List Wd) :
    parseBydayChars (joinCodes (d :: rest))
      = Except.ok ((d :: rest).map Wd.num) := by
  induction rest generalizing d with
  | nil => cases d <;> rfl
  | cons d2 rest2 ih =>
    have hj : joinCodes (d :: d2 :: rest2)
        = d.codeChars ++ ',' :: joinCodes (d2 :: rest2) := rfl
    rw [hj]
    cases d <;>
      simp [Wd.codeChars, parseBydayChars, weekdayCode, ih d2, Wd.num]

theorem handleNameValue_byday (acc : RRuleAcc) (d : Wd) (rest : List Wd) :
    handleNameValue acc "BYDAY".data (joinCodes (d :: rest))
      = Except.ok ⟨acc.freq, some ((d :: rest).map Wd.num)⟩ := by
  unfold handleNameValue
  have hname : "BYDAY".data.map Char.toUpper = "BYDAY".data := rfl
  simp only [hname, joinCodes_toUpper]
  have hfreq : ¬("BYDAY".data = "FREQ".data) := by decide
  rw [if_neg hfreq]
  simp only [if_true]
  rw [parseByday_joinCodes d rest]

theorem handlePart_byday (acc : RRuleAcc) (d : Wd) (rest : List Wd) :
    handlePart acc ("BYDAY=".data ++ joinCodes (d :: rest))
      = Except.ok ⟨acc.freq, some ((d :: rest).map Wd.num)⟩ := by
  unfold handlePart
  have hsplit : splitOnChar '=' ("BYDAY=".data ++ joinCodes (d :: rest))
      = ["BYDAY".data, joinCodes (d :: rest)] := by
    have h1 : "BYDAY=".data ++ joinCodes (d :: rest)
        = "BYDAY".data ++ '=' :: joinCodes (d :: rest) := rfl
    rw [h1, splitOnChar_append _ _ _ (by decide),
      splitOnChar_not_mem _ _ (joinCodes_no_eq _)]
  rw [hsplit]
  exact handleNameValue_byday acc d rest

/-- Parsing `FREQ=<name>` alone yields the bare frequency. -/
theorem rrulestr_freq (f : Freq) :
    rrulestr ("FREQ=" ++ f.name) = Except.ok ⟨f, none⟩ := by
  cases f <;> rfl

/-- Parsing `FREQ=<name>;BYDAY=<codes>` yields the frequency with the
decoded weekday list. -/
theorem rrulestr_freq_byday (f : Freq) (d : Wd) (rest : List Wd) :
    rrulestr ("FREQ=" ++ f.name ++ ";BYDAY=" ++
        String.mk (joinCodes (d :: rest)))
      = Except.ok ⟨f, some ((d :: rest).map Wd.num)⟩ := by
  have hdata : ("FREQ=" ++ f.name ++ ";BYDAY=" ++
      String.mk (joinCodes (d :: rest))).data
      = ("FREQ=" ++ f.name).data ++ ';' ::
        ("BYDAY=".data ++ joinCodes (d :: rest)) := by
    cases f <;> rfl
  unfold rrulestr
  rw [hdata, splitOnChar_append _ _ _ (by cases f <;> decide),
    splitOnChar_not_mem]
  · have hfold : [("FREQ=" ++ f.name).data,
        "BYDAY=".data ++ joinCodes (d :: rest)].foldlM handlePart
          ⟨none, none⟩
        = Except.ok ⟨some f, some ((d :: rest).map Wd.num)⟩ := by
      have h1 : handlePart ⟨none, none⟩ ("FREQ=" ++ f.name).data
          = Except.ok ⟨some f, none⟩ := by cases f <;> rfl
      simp only [List.foldlM, h1, bind, Except.bind]
      rw [handlePart_byday]
      rfl
    rw [hfold]
  · intro hmem
    rcases List.mem_append.mp hmem with h | h
    · revert h; decide
    · exact joinCodes_no_semicolon _ h

/-- The code's `target_dt <= until` test coincides with the inclusive
end-date check. -/
theorem until_check (ed : Option Date) (td : Date) :
    Date.ble td (match ed with
      | some e => if Date.ble e td then e else td
      | none => td)
      = (match ed with
         | none => true
         | some e => Date.ble td e) := by
  cases ed with
  | none => simp [Date.ble_refl]
  | some e =>
    by_cases h : Date.ble e td
    · simp [h]
    · have h' : Date.ble e td = false := by simpa using h
      simp [h', Date.ble_refl, Date.ble_of_not_ble h']

theorem daily_matches_core (sd td : Date) (ed : Option Date) :
    rruleIncludesDate "FREQ=DAILY" sd ed td
      = Except.ok (inWindow sd ed td) := by
  unfold rruleIncludesDate
  rw [show rrulestr "FREQ=DAILY" = Except.ok ⟨Freq.daily, none⟩ from rfl]
  show Except.ok (occursOn ⟨Freq.daily, none⟩ sd td && Date.ble td _)
    = Except.ok (inWindow sd ed td)
  rw [until_check]
  rfl

theorem weekly_nobyday_core (sd td : Date) (ed : Option Date) :
    rruleIncludesDate "FREQ=WEEKLY" sd ed td
      = Except.ok (inWindow sd ed td &&
          (((td.toOrdinal : Int) - (sd.toOrdinal : Int)) % 7 == 0)) := by
  unfold rruleIncludesDate
  rw [show rrulestr "FREQ=WEEKLY" = Except.ok ⟨Freq.weekly, none⟩ from rfl]
  show Except.ok (occursOn ⟨Freq.weekly, none⟩ sd td && Date.ble td _)
    = Except.ok _
  rw [until_check]
  unfold occursOn inWindow
  simp only [Except.ok.injEq]
  cases Date.ble sd td <;>
    cases (((td.toOrdinal : Int) - (sd.toOrdinal : Int)) % 7 == 0) <;>
      cases (match ed with | none => true | some e => Date.ble td e) <;> rfl

/-- C5: a rule `FREQ=WEEKLY;BYDAY=<codes>` with a valid nonempty comma
list of two-letter weekday codes matches a date exactly when the date's
weekday is in the decoded set and the date lies in
[start_date, end_date-or-unbounded]; in particular `BYDAY=MO,WE,FR`
matches exactly the Mondays, Wednesdays and Fridays of the window, and a
rule with an end date never matches any later date. -/
theorem claim_C5_weekly_byday (d : Wd) (days : List Wd) (sd td : Date)
    (ed : Option Date) :
    rruleIncludesDate
        ("FREQ=WEEKLY;BYDAY=" ++ String.mk (joinCodes (d :: days))) sd ed td
      = Except.ok ((((d :: days).map Wd.num).contains td.weekday) &&
          inWindow sd ed td) := by
  unfold rruleIncludesDate
  rw [show ("FREQ=WEEKLY;BYDAY=" : String)
      = "FREQ=" ++ Freq.name Freq.weekly ++ ";BYDAY=" from rfl,
    rrulestr_freq_byday Freq.weekly d days]
  show Except.ok (occursOn ⟨Freq.weekly, some ((d :: days).map Wd.num)⟩ sd td
      && Date.ble td _) = Except.ok _
  rw [until_check]
  unfold occursOn inWindow
  simp only [Except.ok.injEq]
  cases ((d :: days).map Wd.num).contains td.weekday <;>
    cases Date.ble sd td <;>
      cases (match ed with | none => true | some e => Date.ble td e) <;> rfl

/-- C3 (amended): the evaluator is total and exception-free on every rule
of the grammar the application generates — `FREQ=<one of the seven
iCal frequency names>`, optionally with `;BYDAY=<valid nonempty comma
list of weekday codes>` — for every start date, end date and target
date.  (It is *not* total on arbitrary strings: an unknown frequency or a
malformed BYDAY raises a `ValueError` that escapes to the caller, see the
counterexample.) -/
theorem claim_C3_total_on_grammar (f : Freq) (days : List Wd) (sd td : Date)
    (ed : Option Date) :
    ∃ b, rruleIncludesDate (ruleText f days) sd ed td = Except.ok b := by
  cases days with
  | nil =>
    unfold ruleText rruleIncludesDate
    rw [rrulestr_freq f]
    exact ⟨_, rfl⟩
  | cons d rest =>
    unfold ruleText rruleIncludesDate
    rw [rrulestr_freq_byday f d rest]
    exact ⟨_, rfl⟩

/-! ## Remaining claim theorems -/

/-- C2: starting from any store satisfying the data-model invariant
(non-null completion orders only on complete rows, unique per date) with
distinct row ids, any sequence of Complete/Uncomplete/Toggle operations
preserves it — in particular, at every point in time the non-null
`completion_order` values of each date contain no duplicates. -/
theorem claim_C2_completion_unique (s : Store) (ops : List EngineOp)
    (hnd : (s.instances.map (·.id)).Nodup) (hinv : completionInv s) :
    completionInv (runOps s ops) := by
  induction ops generalizing s with
  | nil => exact hinv
  | cons op ops ih =>
    obtain ⟨h1, h2⟩ := completionInv_applyOp s op hnd hinv
    exact ih (applyOp s op) h2 h1

/-- C4 (amended): `FREQ=DAILY` matches exactly the dates of the window
[start_date, end_date-or-unbounded]; but `FREQ=WEEKLY` *without* BYDAY
matches only the dates of the window a whole number of weeks from
start_date (dateutil's weekly cadence anchored at dtstart), not every
date; and a WEEKLY rule with an unparseable BYDAY raises instead of
matching. -/
theorem claim_C4_daily_weekly (sd td : Date) (ed : Option Date) :
    rruleIncludesDate "FREQ=DAILY" sd ed td
        = Except.ok (inWindow sd ed td) ∧
    rruleIncludesDate "FREQ=WEEKLY" sd ed td
        = Except.ok (inWindow sd ed td &&
            (((td.toOrdinal : Int) - (sd.toOrdinal : Int)) % 7 == 0)) ∧
    rruleIncludesDate "FREQ=WEEKLY;BYDAY=XX" sd ed td
        = Except.error "invalid BYDAY" :=
  ⟨daily_matches_core sd td ed, weekly_nobyday_core sd td ed, rfl⟩
/-- C9 (amended): Reorder on a non-incomplete instance is a silent no-op,
but Complete (`today_complete`) is *unconditional*: on any found instance
— already complete or not — it assigns the fresh completion order
`Max(completion_order among the date's complete rows) + 1` and appends
another `completed` execution record, so Complete on an
already-complete instance is not a no-op. -/
theorem claim_C9_reorder_guard_complete_unguarded (s : Store) (pk : Nat)
    (inst : TaskInstance) (dir : String)
    (hf : s.findInstance pk = some inst) :
    (inst.status ≠ Status.incomplete → reorder s pk dir = s) ∧
    (today_complete s pk).executions
        = s.executions ++ [⟨pk, EventType.completed⟩] ∧
    ((today_complete s pk).findInstance pk).map (·.completion_order)
        = some (some ((s.maxCompletionOrder inst.instance_date).getD 0 + 1))
    := by
  refine ⟨fun hst => reorder_noop_of_nonincomplete s pk inst dir hf hst,
    ?_, ?_⟩
  · rw [today_complete_eq s pk inst hf, executions_tick,
      executions_appendExecution, executions_update]
  · rw [today_complete_eq s pk inst hf, findInstance_tick,
      findInstance_appendExecution, findInstance_update_self]
    · rw [hf]; rfl
    · intro i; rfl

/-- C1 counterexample: on a date whose only instance is toggled
Complete–Uncomplete–Complete, the first Complete assigns order 1 and the
re-completion assigns order 1 again — equal, not strictly greater, so the
old slot *is* recovered — while the execution log is indeed
[completed, uncompleted, completed]. -/
theorem claim_C1_counterexample :
    (((runOps c1Store [.toggle 10]).findInstance 10).map
        (·.completion_order) = some (some 1)) ∧
    (((runOps c1Store [.toggle 10, .toggle 10, .toggle 10]).findInstance 10
        ).map (·.completion_order) = some (some 1)) ∧
    execLog (runOps c1Store [.toggle 10, .toggle 10, .toggle 10]) 10
        = [EventType.completed, EventType.uncompleted, EventType.completed]
    := by decide

/-- C1 witness: the amended round-trip theorem applied to `c1Store`. -/
theorem claim_C1_witness :
    (c1Store.findInstance 10 = some c1Inst ∧
      (c1Store.instances.map (·.id)).Nodup ∧
      c1Inst.status = Status.incomplete) ∧
    (((toggle_complete c1Store 10).findInstance 10).map (·.completion_order)
        = some (some ((c1Store.maxCompletionOrder
            c1Inst.instance_date).getD 0 + 1)) ∧
      ((toggle_complete (toggle_complete (toggle_complete c1Store 10) 10) 10
          ).findInstance 10).map (·.completion_order)
        = some (some ((c1Store.maxCompletionOrder
            c1Inst.instance_date).getD 0 + 1)) ∧
      (∀ v ∈ completionOrders c1Store.instances c1Inst.instance_date,
          v < (c1Store.maxCompletionOrder c1Inst.instance_date).getD 0 + 1) ∧
      execLog (toggle_complete (toggle_complete (toggle_complete c1Store 10)
          10) 10) 10
        = execLog c1Store 10 ++
          [EventType.completed, EventType.uncompleted, EventType.completed]) :=
  ⟨⟨by decide, by decide, by decide⟩,
    claim_C1_toggle_round_trip c1Store 10 c1Inst (by decide) (by decide)
      (by decide)⟩

/-- C2 witness: the invariant-preservation theorem applied to `c2Store`
and the spec's own scenario. -/
theorem claim_C2_witness :
    ((c2Store.instances.map (·.id)).Nodup ∧ completionInv c2Store) ∧
      completionInv (runOps c2Store c2Ops) :=
  ⟨⟨by decide, by decide⟩,
    claim_C2_completion_unique c2Store c2Ops (by decide) (by decide)⟩

/-- C3 counterexample: an unknown frequency does not "fail closed" to a
false match — the parse error (dateutil's `ValueError`) escapes, so the
evaluation yields no boolean at all. -/
theorem claim_C3_counterexample :
    rruleIncludesDate "FREQ=BOGUS" ⟨2026, 1, 1⟩ none ⟨2026, 1, 1⟩
        = Except.error "invalid FREQ" ∧
    ∀ b, rruleIncludesDate "FREQ=BOGUS" ⟨2026, 1, 1⟩ none ⟨2026, 1, 1⟩
        ≠ Except.ok b := by
  constructor
  · decide
  · intro b
    cases b <;> decide

/-- C4 counterexample: 2026-01-01 is a Thursday; the claim says
`FREQ=WEEKLY` with no BYDAY matches *every* in-window date, but the code
does not match Friday 2026-01-02 (only the weekly cadence of the start
date). -/
theorem claim_C4_counterexample :
    rruleIncludesDate "FREQ=WEEKLY" ⟨2026, 1, 1⟩ none ⟨2026, 1, 2⟩
        = Except.ok false ∧
    inWindow ⟨2026, 1, 1⟩ none ⟨2026, 1, 2⟩ = true := by decide

/-- C6 witness: the idempotence theorem applied to the concrete DAILY
fixture. -/
theorem claim_C6_witness :
    generate_instances_for_date c6Store dJun15
        = Except.ok (c6Store1, [0]) ∧
    (generate_instances_for_date c6Store1 dJun15
        = Except.ok (c6Store1, []) ∧
      ∃ tail, c6Store1.instances = c6Store.instances ++ tail) :=
  ⟨by decide,
    claim_C6_generate_idempotent c6Store c6Store1 dJun15 [0] (by decide)⟩

/-- C7: `rollover_incomplete` returns the *source* rows at `from_date`,
not the continuation rows it created at `to_date` — contradicting its own
docstring ("Returns the list of TaskInstance objects that were created")
and the spec's contract: here the single returned row is the pre-existing
row id 5 dated 2026-06-14, while the row actually created is the new row
id 8 dated 2026-06-15 (with assigned_order 2). -/
theorem claim_C7_returns_source_rows :
    ((rollover_incomplete c7Store dJun14 dJun15).2.map (·.id) = [5]) ∧
    ((rollover_incomplete c7Store dJun14 dJun15).2.map (·.instance_date)
        = [dJun14]) ∧
    dJun14 ≠ dJun15 ∧
    ((rollover_incomplete c7Store dJun14 dJun15).1.instances.drop 3).map
        (fun i => (i.id, i.instance_date, i.assigned_order))
        = [(8, dJun15, 2)] := by decide

/-- C9 counterexample: Complete on an already-complete instance is not a
silent no-op — its completion order moves from 1 to 2 and a new
`completed` execution record is appended. -/
theorem claim_C9_counterexample :
    c9Inst.status = Status.complete ∧
    c9Inst.completion_order = some 1 ∧
    c9Store.executions = [] ∧
    (((today_complete c9Store 20).findInstance 20).map (·.completion_order)
        = some (some 2)) ∧
    (today_complete c9Store 20).executions
        = [⟨20, EventType.completed⟩] := by decide

/-- C9 witness: the amended theorem applied to `c9Store`. -/
theorem claim_C9_witness :
    (c9Store.findInstance 20 = some c9Inst) ∧
    ((c9Inst.status ≠ Status.incomplete →
        reorder c9Store 20 "up" = c9Store) ∧
      (today_complete c9Store 20).executions
        = c9Store.executions ++ [⟨20, EventType.completed⟩] ∧
      ((today_complete c9Store 20).findInstance 20).map (·.completion_order)
        = some (some ((c9Store.maxCompletionOrder
            c9Inst.instance_date).getD 0 + 1))) :=
  ⟨by decide,
    claim_C9_reorder_guard_complete_unguarded c9Store 20 c9Inst "up"
      (by decide)⟩

/-- C10 witness: the toggle-on-skipped theorem applied to `c10Store`. -/
theorem claim_C10_witness :
    (c10Store.findInstance 30 = some c10Inst ∧
      c10Inst.status = Status.skipped) ∧
    ((toggle_complete c10Store 30).findInstance 30 = some
        { c10Inst with status := Status.incomplete,
                       completion_order := none, completed_at := none,
                       skipped_at := none } ∧
      (toggle_complete c10Store 30).executions
        = c10Store.executions ++ [⟨30, EventType.uncompleted⟩]) :=
  ⟨⟨by decide, by decide⟩,
    claim_C10_toggle_skipped c10Store 30 c10Inst (by decide) (by decide)⟩

end Hearth
